import Mathlib

/-!
Shallow embedding of the π-estimation notebook
(`src/content/ch-demos/piday-code.ipynb`).

The notebook builds a quantum-phase-estimation circuit for each qubit
count, runs it on an external backend, and post-processes the most
frequent measurement outcome into an estimate of π.  We embed circuits
as an explicit list of gate operations over fixed register counts,
backends as abstract functions producing a frequency table, the
optional parameters of Python as `Option` arguments, exceptions as `Option`
results, and the file-saving side effect as an explicit list of file
names in the result.
-/

/-- A gate angle: either `num·π/den` (as in `-np.pi/float(2**(j-m))`)
or a plain rational literal (as in `cu1(1, ...)`). -/
inductive Angle where
  | pifrac (num : Int) (den : Nat)
  | lit (v : ℚ)
deriving DecidableEq

/-- A single circuit operation, as appended by the qiskit calls the
notebook makes. -/
inductive Gate where
  | swap (a b : Nat)
  | cu1 (lam : Angle) (ctrl tgt : Nat)
  | h (q : Nat)
  | x (q : Nat)
  | barrier
  | measure (q c : Nat)
deriving DecidableEq

/-- `Gate.isCU1 g` holds exactly on controlled-phase operations. -/
def Gate.isCU1 : Gate → Bool
  | .cu1 _ _ _ => true
  | _ => false

/-- `Gate.isH g` holds exactly on basis-change (Hadamard) operations. -/
def Gate.isH : Gate → Bool
  | .h _ => true
  | _ => false

/-- `Gate.isSwap g` holds exactly on swap operations. -/
def Gate.isSwap : Gate → Bool
  | .swap _ _ => true
  | _ => false

/-- `QuantumCircuit(n_qubits, n_clbits)`: register counts plus the
ordered list of operations appended so far. -/
structure QuantumCircuit where
  num_qubits : Nat
  num_clbits : Nat
  ops : List Gate
deriving DecidableEq

/-- `circ.swap(a, b)` appends a swap gate. -/
def QuantumCircuit.swap (c : QuantumCircuit) (a b : Nat) : QuantumCircuit :=
  { c with ops := c.ops ++ [Gate.swap a b] }

/-- `circ.cu1(lam, ctrl, tgt)` appends a controlled-phase gate. -/
def QuantumCircuit.cu1 (c : QuantumCircuit) (lam : Angle) (ctrl tgt : Nat) :
    QuantumCircuit :=
  { c with ops := c.ops ++ [Gate.cu1 lam ctrl tgt] }

/-- `circ.h(q)` with a single qubit argument appends one Hadamard gate. -/
def QuantumCircuit.h (c : QuantumCircuit) (q : Nat) : QuantumCircuit :=
  { c with ops := c.ops ++ [Gate.h q] }

/-- `circ.h(range(n))` broadcasts, appending a Hadamard on each of
qubits `0, …, n-1` in order. -/
def QuantumCircuit.hRange (c : QuantumCircuit) (n : Nat) : QuantumCircuit :=
  { c with ops := c.ops ++ (List.range n).map Gate.h }

/-- `circ.x(q)` appends an X gate. -/
def QuantumCircuit.x (c : QuantumCircuit) (q : Nat) : QuantumCircuit :=
  { c with ops := c.ops ++ [Gate.x q] }

/-- `circ.barrier()` appends a barrier. -/
def QuantumCircuit.barrier (c : QuantumCircuit) : QuantumCircuit :=
  { c with ops := c.ops ++ [Gate.barrier] }

/-- `circ.measure(range(n), range(n))` appends a measurement of qubit
`i` into classical bit `i` for each `i < n`, in order. -/
def QuantumCircuit.measureRange (c : QuantumCircuit) (n : Nat) : QuantumCircuit :=
  { c with ops := c.ops ++ (List.range n).map (fun i => Gate.measure i i) }

/-- `qft_dagger(circ_, n_qubits)`: n-qubit inverse quantum Fourier
transform on the first `n_qubits` qubits of `circ_`.  Mirrors the
source: a swap loop over `range(int(n_qubits/2))`, then for each `j`
in `range(0, n_qubits)` the controlled-phase loop over `m` in
`range(j)` with angle `-np.pi/float(2**(j-m))` followed by `h(j)`. -/
def qft_dagger (circ_ : QuantumCircuit) (n_qubits : Nat) : QuantumCircuit :=
  let c1 := (List.range (n_qubits / 2)).foldl
    (fun c qubit => c.swap qubit (n_qubits - qubit - 1)) circ_
  (List.range n_qubits).foldl
    (fun c j =>
      ((List.range j).foldl
        (fun c m => c.cu1 (Angle.pifrac (-1) (2 ^ (j - m))) m j) c).h j)
    c1

/-- `qpe_pre(circ_, n_qubits)`: the QPE input state.  Mirrors the
source: `h(range(n_qubits))`, `x(n_qubits)`, then for `x` in
`reversed(range(n_qubits))`, `2**(n_qubits-1-x)` repetitions of
`cu1(1, n_qubits-1-x, n_qubits)`. -/
def qpe_pre (circ_ : QuantumCircuit) (n_qubits : Nat) : QuantumCircuit :=
  let c1 := (circ_.hRange n_qubits).x n_qubits
  ((List.range n_qubits).reverse).foldl
    (fun c x =>
      (List.range (2 ^ (n_qubits - 1 - x))).foldl
        (fun c _ => c.cu1 (Angle.lit 1) (n_qubits - 1 - x) n_qubits) c)
    c1

/-- A frequency table of classical outcomes: bitstring keys with their
occurrence counts, in backend (insertion) order. -/
abbrev Counts := List (String × Nat)

/-- An execution backend: given the circuit, the shot count and the
optimization level, produces a frequency table.  The real simulator is
an external collaborator, so it is a parameter of the embedding. -/
abbrev Backend := QuantumCircuit → Nat → Nat → Counts

/-- `run_job(circ_, backend_, shots_=1000, optimization_level_=0)`:
submits the circuit and returns the counts.  The optional parameters
of Python are embedded as `Option` arguments; `none` means the caller
did not supply the argument, in which case the default value from the
source is used. -/
def run_job (circ_ : QuantumCircuit) (backend_ : Backend)
    (shots_ : Option Nat) (optimization_level_ : Option Nat) : Counts :=
  backend_ circ_ (shots_.getD 1000) (optimization_level_.getD 0)

/-- `max(counts, key=counts.get)`: the first key of maximal count, or
`none` on an empty table (Python raises `ValueError` there). -/
def max_by_count : Counts → Option String
  | [] => none
  | kv :: rest =>
      some ((rest.foldl (fun best p => if p.2 > best.2 then p else best) kv).1)

/-- `int(s, 2)`: decode a binary string to a natural number. -/
def binToNat (s : String) : Nat :=
  s.data.foldl (fun acc ch => 2 * acc + (if ch = '1' then 1 else 0)) 0

/-- The circuit `get_pi_estimate` constructs for `n_qubits`:
`QuantumCircuit(n_qubits + 1, n_qubits)`, then `qpe_pre`, a barrier,
`qft_dagger`, a barrier, and measurement of the first `n_qubits`
qubits into the `n_qubits` classical bits. -/
def get_pi_estimate_circ (n_qubits : Nat) : QuantumCircuit :=
  let circ := QuantumCircuit.mk (n_qubits + 1) n_qubits []
  let circ := qpe_pre circ n_qubits
  let circ := circ.barrier
  let circ := qft_dagger circ n_qubits
  let circ := circ.barrier
  circ.measureRange n_qubits

/-- `get_pi_estimate(n_qubits)`: builds the circuit, saves a diagram
image when `n_qubits < 10`, runs the job with `shots_=10000` and
`optimization_level_=0`, decodes the most frequent outcome and returns
`1/(2*theta)` where `theta = max_counts_result/2**n_qubits`.  The
result pair is (estimate or `none` on an arithmetic fault, the list of
image files written).  The source raises `ZeroDivisionError` exactly
when `2*theta == 0`, i.e. exactly when the decoded integer `k` is zero
(since `2^n_qubits ≠ 0`; see `theta_eq_zero_iff`), so the fault branch
tests `k = 0`.  The backend is a parameter (the source uses the global
`simulator`). -/
def get_pi_estimate (backend : Backend) (n_qubits : Nat) :
    Option ℚ × List String :=
  let circ := get_pi_estimate_circ n_qubits
  let files :=
    if n_qubits < 10 then [toString n_qubits ++ "_qubit_circuit.png"] else []
  let counts := run_job circ backend (some 10000) (some 0)
  let est :=
    match max_by_count counts with
    | none => none
    | some s =>
        let k := binToNat s
        let theta : ℚ := (k : ℚ) / 2 ^ n_qubits
        if k = 0 then none else some (1 / (2 * theta))
  (est, files)

/-- `list(range(2, 12+1))`: the swept qubit counts. -/
def nqs : List Nat := List.range' 2 (12 + 1 - 2)

/-- The sweep loop: for each `nq` in `nqs`, call `get_pi_estimate`,
append the estimate to `pi_estimates` and print it.  The result is
`none` when an iteration faults (the exception aborts the sweep);
otherwise it is the pair (collected estimates, printed
(qubit count, estimate) lines in order). -/
def sweep (backend : Backend) : Option (List ℚ × List (Nat × ℚ)) :=
  nqs.foldlM
    (fun acc nq =>
      match (get_pi_estimate backend nq).1 with
      | none => none
      | some e => some (acc.1 ++ [e], acc.2 ++ [(nq, e)]))
    ([], [])

/-- A demonstration backend whose mode outcome decodes to 1. -/
def demoBackend : Backend := fun _ _ _ => [("1", 9)]

/-- A demonstration backend whose mode outcome decodes to 0. -/
def demoZeroBackend : Backend := fun _ _ _ => [("0", 9)]

/-- A demonstration backend that echoes the shot count it received. -/
def shotsEcho : Backend := fun _ shots _ => [("shots", shots)]

/-! ### Structural lemmas: the builders only append operations -/

lemma foldl_ops_append (f : QuantumCircuit → Nat → QuantumCircuit)
    (g : Nat → List Gate)
    (hf : ∀ c i, f c i = ⟨c.num_qubits, c.num_clbits, c.ops ++ g i⟩) :
    ∀ (l : List Nat) (c : QuantumCircuit),
      l.foldl f c = ⟨c.num_qubits, c.num_clbits, c.ops ++ (l.map g).flatten⟩ := by
  intro l
  induction l with
  | nil => intro c; simp
  | cons a t ih =>
      intro c
      rw [List.foldl_cons, hf, ih]
      simp

lemma qft_dagger_eq (c : QuantumCircuit) (n : Nat) :
    qft_dagger c n =
      ⟨c.num_qubits, c.num_clbits,
        c.ops
        ++ ((List.range (n / 2)).map (fun q => [Gate.swap q (n - q - 1)])).flatten
        ++ ((List.range n).map (fun j =>
              ((List.range j).map (fun m =>
                [Gate.cu1 (Angle.pifrac (-1) (2 ^ (j - m))) m j])).flatten
              ++ [Gate.h j])).flatten⟩ := by
  have hswap :=
    foldl_ops_append
      (fun c qubit => c.swap qubit (n - qubit - 1))
      (fun q => [Gate.swap q (n - q - 1)])
      (fun c q => rfl) (List.range (n / 2))
  have hinner : ∀ (j : Nat) (c0 : QuantumCircuit),
      (List.range j).foldl
        (fun c m => c.cu1 (Angle.pifrac (-1) (2 ^ (j - m))) m j) c0
        = ⟨c0.num_qubits, c0.num_clbits,
            c0.ops ++ ((List.range j).map (fun m =>
              [Gate.cu1 (Angle.pifrac (-1) (2 ^ (j - m))) m j])).flatten⟩ :=
    fun j => foldl_ops_append _ _ (fun c m => rfl) (List.range j)
  have houter :=
    foldl_ops_append
      (fun c j =>
        ((List.range j).foldl
          (fun c m => c.cu1 (Angle.pifrac (-1) (2 ^ (j - m))) m j) c).h j)
      (fun j => ((List.range j).map (fun m =>
        [Gate.cu1 (Angle.pifrac (-1) (2 ^ (j - m))) m j])).flatten ++ [Gate.h j])
      (fun c j => by dsimp only; rw [hinner j c]; simp [QuantumCircuit.h])
      (List.range n)
  simp only [qft_dagger]
  rw [hswap c, houter]

lemma flatten_map_const_singleton (K : Nat) (g : Gate) :
    ((List.range K).map (fun _ => [g])).flatten = List.replicate K g := by
  induction K with
  | zero => simp
  | succ k ih => simp [List.range_succ, ih, List.replicate_succ']

lemma range_reverse_eq_map (n : Nat) :
    (List.range n).reverse = (List.range n).map (fun i => n - 1 - i) := by
  conv_lhs => rw [List.range_eq_range']
  rw [List.reverse_range']
  simp

lemma reverse_range_map (A : Nat → List Gate) (n : Nat) :
    (List.range n).reverse.map (fun x => A (n - 1 - x)) = (List.range n).map A := by
  rw [range_reverse_eq_map, List.map_map]
  refine List.map_congr_left ?_
  intro i hi
  have hlt : i < n := List.mem_range.mp hi
  simp only [Function.comp_apply]
  congr 1
  omega

lemma qpe_pre_eq (c : QuantumCircuit) (n : Nat) :
    qpe_pre c n =
      ⟨c.num_qubits, c.num_clbits,
        c.ops
        ++ (List.range n).map Gate.h
        ++ [Gate.x n]
        ++ ((List.range n).map (fun i =>
              List.replicate (2 ^ i) (Gate.cu1 (Angle.lit 1) i n))).flatten⟩ := by
  have hinner : ∀ (x : Nat) (c0 : QuantumCircuit),
      (List.range (2 ^ (n - 1 - x))).foldl
        (fun c _ => c.cu1 (Angle.lit 1) (n - 1 - x) n) c0
        = ⟨c0.num_qubits, c0.num_clbits,
            c0.ops ++ List.replicate (2 ^ (n - 1 - x))
              (Gate.cu1 (Angle.lit 1) (n - 1 - x) n)⟩ := by
    intro x c0
    rw [foldl_ops_append
        (fun c _ => c.cu1 (Angle.lit 1) (n - 1 - x) n)
        (fun _ => [Gate.cu1 (Angle.lit 1) (n - 1 - x) n])
        (fun c m => rfl) (List.range (2 ^ (n - 1 - x))) c0,
      flatten_map_const_singleton]
  have houter :=
    foldl_ops_append
      (fun c x =>
        (List.range (2 ^ (n - 1 - x))).foldl
          (fun c _ => c.cu1 (Angle.lit 1) (n - 1 - x) n) c)
      (fun x => List.replicate (2 ^ (n - 1 - x))
        (Gate.cu1 (Angle.lit 1) (n - 1 - x) n))
      (fun c x => hinner x c)
      ((List.range n).reverse)
  simp only [qpe_pre]
  rw [houter]
  rw [show ((List.range n).reverse.map (fun x =>
        List.replicate (2 ^ (n - 1 - x)) (Gate.cu1 (Angle.lit 1) (n - 1 - x) n)))
      = (List.range n).map (fun i =>
          List.replicate (2 ^ i) (Gate.cu1 (Angle.lit 1) i n)) from
    reverse_range_map (fun i => List.replicate (2 ^ i) (Gate.cu1 (Angle.lit 1) i n)) n]
  simp [QuantumCircuit.hRange, QuantumCircuit.x]

lemma flatten_map_singleton (f : Nat → Gate) (l : List Nat) :
    (l.map (fun i => [f i])).flatten = l.map f := by
  induction l with
  | nil => rfl
  | cons a t ih => simp [ih]

lemma list_sum_range_id (n : Nat) :
    ((List.range n).map (fun j => j)).sum = n * (n - 1) / 2 := by
  have hbridge : ((List.range n).map (fun j => j)).sum
      = ∑ i ∈ Finset.range n, i := rfl
  rw [hbridge, Finset.sum_range_id]

lemma list_range_sum (n : Nat) : (List.range n).sum = n * (n - 1) / 2 := by
  have h : (List.range n).sum = ((List.range n).map (fun j => j)).sum := by simp
  rw [h, list_sum_range_id]

lemma list_sum_range_pow (n : Nat) :
    ((List.range n).map (fun i => (2 : Nat) ^ i)).sum = 2 ^ n - 1 := by
  induction n with
  | zero => simp
  | succ k ih =>
      rw [List.range_succ, List.map_append, List.sum_append, ih]
      have h1 : 1 ≤ (2 : Nat) ^ k := Nat.one_le_two_pow
      have h2 : (2 : Nat) ^ (k + 1) = 2 * 2 ^ k := by ring
      simp
      omega

/-- C1: for every qubit count `n`, `qft_dagger` emits exactly
`n*(n-1)/2` controlled-phase operations, exactly `n` Hadamard
operations, and exactly `⌊n/2⌋` swap operations on the given
circuit. -/
theorem qft_dagger_gate_counts (c : QuantumCircuit) (n : Nat) :
    (qft_dagger c n).ops.countP Gate.isCU1
        = c.ops.countP Gate.isCU1 + n * (n - 1) / 2
    ∧ (qft_dagger c n).ops.countP Gate.isH = c.ops.countP Gate.isH + n
    ∧ (qft_dagger c n).ops.countP Gate.isSwap
        = c.ops.countP Gate.isSwap + n / 2 := by
  rw [qft_dagger_eq]
  refine ⟨?_, ?_, ?_⟩ <;>
    simp [List.countP_append, List.countP_flatten, List.map_map,
      Function.comp_def, List.countP_cons, Gate.isCU1, Gate.isH, Gate.isSwap,
      list_sum_range_id, list_range_sum]

example : (qft_dagger ⟨5, 4, []⟩ 4).ops.countP Gate.isCU1 = 6 := by decide
example : (qft_dagger ⟨5, 4, []⟩ 4).ops.countP Gate.isH = 4 := by decide
example : (qft_dagger ⟨5, 4, []⟩ 4).ops.countP Gate.isSwap = 2 := by decide

/-- C2: `qft_dagger` applies, in order: first swaps of qubit `q` with
qubit `n-1-q` for each `q < ⌊n/2⌋`; then for each `j` from `0` to
`n-1` in increasing order, controlled-phase rotations with angle
`-π/2^(j-m)` for each earlier qubit `m < j`, followed by a Hadamard on
qubit `j`. -/
theorem qft_dagger_order (c : QuantumCircuit) (n : Nat) :
    (qft_dagger c n).ops =
      c.ops
      ++ (List.range (n / 2)).map (fun q => Gate.swap q (n - 1 - q))
      ++ ((List.range n).map (fun j =>
            ((List.range j).map (fun m =>
              Gate.cu1 (Angle.pifrac (-1) (2 ^ (j - m))) m j))
            ++ [Gate.h j])).flatten := by
  rw [qft_dagger_eq]
  have hswap : ((List.range (n / 2)).map (fun q => [Gate.swap q (n - q - 1)])).flatten
      = (List.range (n / 2)).map (fun q => Gate.swap q (n - 1 - q)) := by
    rw [flatten_map_singleton (fun q => Gate.swap q (n - q - 1))]
    refine List.map_congr_left ?_
    intro q _
    congr 1
    omega
  have hmain : ∀ j : Nat,
      ((List.range j).map (fun m =>
        [Gate.cu1 (Angle.pifrac (-1) (2 ^ (j - m))) m j])).flatten
      = (List.range j).map (fun m =>
          Gate.cu1 (Angle.pifrac (-1) (2 ^ (j - m))) m j) :=
    fun j => flatten_map_singleton (fun m =>
      Gate.cu1 (Angle.pifrac (-1) (2 ^ (j - m))) m j) (List.range j)
  simp only [hswap, hmain]

/-- C3: `qpe_pre` puts Hadamards on the first `n` qubits, an X gate on
the auxiliary qubit `n`, and then for each estimation qubit index
`i = n-1-x` exactly `2^i` repetitions of a controlled phase-1 rotation
between qubit `i` and the auxiliary qubit, for a total of exactly
`2^n - 1` controlled-phase operations. -/
theorem qpe_pre_structure (c : QuantumCircuit) (n : Nat) :
    (qpe_pre c n).ops =
      c.ops
      ++ (List.range n).map Gate.h
      ++ [Gate.x n]
      ++ ((List.range n).map (fun i =>
            List.replicate (2 ^ i) (Gate.cu1 (Angle.lit 1) i n))).flatten
    ∧ (qpe_pre c n).ops.countP Gate.isCU1
        = c.ops.countP Gate.isCU1 + (2 ^ n - 1) := by
  rw [qpe_pre_eq]
  refine ⟨rfl, ?_⟩
  simp [List.countP_append, List.countP_flatten, List.map_map,
    Function.comp_def, List.countP_replicate, Gate.isCU1, list_sum_range_pow]

example : (qpe_pre ⟨4, 3, []⟩ 3).ops.countP Gate.isCU1 = 7 := by decide

/-- C10: the builders `qft_dagger` and `qpe_pre` only append
operations to the passed circuit: every operation present before the
call is still present, unchanged and in the same position, afterward,
and the register counts are unchanged.  (The whole effect is the
updated circuit; neither builder produces any other value.) -/
theorem builders_append_only (c : QuantumCircuit) (n : Nat) :
    (qft_dagger c n).num_qubits = c.num_qubits
    ∧ (qft_dagger c n).num_clbits = c.num_clbits
    ∧ (∃ l, (qft_dagger c n).ops = c.ops ++ l)
    ∧ (qpe_pre c n).num_qubits = c.num_qubits
    ∧ (qpe_pre c n).num_clbits = c.num_clbits
    ∧ (∃ l, (qpe_pre c n).ops = c.ops ++ l) := by
  rw [qft_dagger_eq, qpe_pre_eq]
  refine ⟨rfl, rfl,
    ⟨((List.range (n / 2)).map (fun q => [Gate.swap q (n - q - 1)])).flatten
      ++ ((List.range n).map (fun j =>
            ((List.range j).map (fun m =>
              [Gate.cu1 (Angle.pifrac (-1) (2 ^ (j - m))) m j])).flatten
            ++ [Gate.h j])).flatten, ?_⟩,
    rfl, rfl,
    ⟨(List.range n).map Gate.h ++ [Gate.x n]
      ++ ((List.range n).map (fun i =>
            List.replicate (2 ^ i) (Gate.cu1 (Angle.lit 1) i n))).flatten, ?_⟩⟩
  · simp
  · simp

example : binToNat "01" = 1 := by decide
example : max_by_count [("10", 3), ("01", 7)] = some "01" := by decide
example : ((get_pi_estimate demoBackend 2).1).isSome = true := by decide
example : (get_pi_estimate demoZeroBackend 2).1 = none := by decide
example : nqs = [2, 3, 4, 5, 6, 7, 8, 9, 10, 11, 12] := by decide

/-! ### Post-processing lemmas -/

lemma theta_eq_zero_iff (k n : Nat) : (k : ℚ) / 2 ^ n = 0 ↔ k = 0 := by
  have h2 : ((2 : ℚ)) ^ n ≠ 0 := pow_ne_zero n two_ne_zero
  constructor
  · intro h
    rcases div_eq_zero_iff.mp h with h | h
    · exact_mod_cast h
    · exact absurd h h2
  · intro h
    subst h
    simp

lemma foldl_pick_mem (l : List (String × Nat)) :
    ∀ init : String × Nat,
      l.foldl (fun best p => if p.2 > best.2 then p else best) init ∈ init :: l := by
  induction l with
  | nil => intro init; simp
  | cons a t ih =>
      intro init
      rw [List.foldl_cons]
      by_cases hc : a.2 > init.2
      · rw [if_pos hc]
        rcases List.mem_cons.mp (ih a) with h1 | h1
        · rw [h1]; simp
        · simp [h1]
      · rw [if_neg hc]
        rcases List.mem_cons.mp (ih init) with h1 | h1
        · rw [h1]; simp
        · simp [h1]

lemma max_by_count_mem {counts : Counts} {s : String}
    (h : max_by_count counts = some s) : s ∈ counts.map Prod.fst := by
  match counts with
  | [] => simp [max_by_count] at h
  | kv :: rest =>
      simp only [max_by_count, Option.some.injEq] at h
      rw [← h]
      exact List.mem_map_of_mem Prod.fst (foldl_pick_mem rest kv)

lemma foldl_bin_lt (l : List Char) :
    ∀ acc : Nat,
      l.foldl (fun acc ch => 2 * acc + (if ch = '1' then 1 else 0)) acc
        < (acc + 1) * 2 ^ l.length := by
  induction l with
  | nil => intro acc; simp
  | cons a t ih =>
      intro acc
      rw [List.foldl_cons]
      have h := ih (2 * acc + (if a = '1' then 1 else 0))
      have hb : (if a = '1' then 1 else 0) ≤ 1 := by split <;> omega
      calc t.foldl _ (2 * acc + (if a = '1' then 1 else 0))
          < (2 * acc + (if a = '1' then 1 else 0) + 1) * 2 ^ t.length := h
        _ ≤ (2 * (acc + 1)) * 2 ^ t.length := by
            have : 2 * acc + (if a = '1' then 1 else 0) + 1 ≤ 2 * (acc + 1) := by omega
            exact Nat.mul_le_mul_right _ this
        _ = (acc + 1) * 2 ^ (a :: t).length := by
            rw [List.length_cons, pow_succ]
            ring

lemma binToNat_lt (s : String) : binToNat s < 2 ^ s.length := by
  have h := foldl_bin_lt s.data 0
  rw [Nat.zero_add, Nat.one_mul] at h
  exact h

/-! ### Claim theorems about the post-processing and the drivers -/

/-- C6: for every `n` and every counts table whose keys are n-bit
bitstrings, the intermediate value `theta = mode_integer / 2^n`
computed by `get_pi_estimate` lies in `[0, 1)`. -/
theorem theta_in_unit_interval (n : Nat) (counts : Counts) (s : String)
    (hkeys : ∀ p ∈ counts, p.1.length = n)
    (hs : max_by_count counts = some s) :
    0 ≤ (binToNat s : ℚ) / 2 ^ n ∧ (binToNat s : ℚ) / 2 ^ n < 1 := by
  have hms := max_by_count_mem hs
  obtain ⟨p, hp, hps⟩ := List.mem_map.mp hms
  have hlen : s.length = n := by rw [← hps]; exact hkeys p hp
  have hlt : binToNat s < 2 ^ n := hlen ▸ binToNat_lt s
  constructor
  · positivity
  · rw [div_lt_one (by positivity)]
    exact_mod_cast hlt

/-- Witness for C6 at the concrete counts table
`{"10": 3, "01": 7}` with `n = 2`: the mode decodes to 1 and
`theta = 1/4` lies in `[0, 1)`. -/
theorem theta_in_unit_interval_witness :
    0 ≤ (binToNat "01" : ℚ) / 2 ^ 2 ∧ (binToNat "01" : ℚ) / 2 ^ 2 < 1 :=
  theta_in_unit_interval 2 [("10", 3), ("01", 7)] "01" (by decide) (by decide)

/-- C4: `get_pi_estimate` selects the bitstring with the highest
count, decodes it to an integer `k`, computes `theta = k / 2^n` and
returns `1/(2*theta)`, i.e. `2^(n-1)/k`, whenever `k` is nonzero. -/
theorem get_pi_estimate_formula (b : Backend) (n : Nat) (s : String)
    (hn : 1 ≤ n)
    (hs : max_by_count
      (run_job (get_pi_estimate_circ n) b (some 10000) (some 0)) = some s)
    (hk : binToNat s ≠ 0) :
    (get_pi_estimate b n).1
      = some (1 / (2 * ((binToNat s : ℚ) / 2 ^ n)))
    ∧ (get_pi_estimate b n).1
      = some ((2 : ℚ) ^ (n - 1) / (binToNat s : ℚ)) := by
  have hval : (get_pi_estimate b n).1
      = some (1 / (2 * ((binToNat s : ℚ) / 2 ^ n))) := by
    simp only [get_pi_estimate]
    rw [hs]
    simp only [if_neg hk]
  refine ⟨hval, ?_⟩
  rw [hval]
  congr 1
  have hk' : (binToNat s : ℚ) ≠ 0 := Nat.cast_ne_zero.mpr hk
  have h2 : ((2 : ℚ)) ^ n = 2 * 2 ^ (n - 1) := by
    conv_lhs => rw [show n = n - 1 + 1 by omega]
    rw [pow_succ]
    ring
  field_simp
  rw [h2]
  ring

/-- Witness for C4 with a concrete backend whose mode outcome is
`"1"` (so `k = 1`) and `n = 2`. -/
theorem get_pi_estimate_formula_witness :
    (get_pi_estimate demoBackend 2).1
      = some ((2 : ℚ) ^ (2 - 1) / (binToNat "1" : ℚ)) :=
  (get_pi_estimate_formula demoBackend 2 "1" (by decide) (by decide)
    (by decide)).2

lemma sweep_fold_none (b : Backend) :
    ∀ (l : List Nat) (acc : List ℚ × List (Nat × ℚ)),
      (∃ x ∈ l, (get_pi_estimate b x).1 = none) →
      List.foldlM
        (fun acc nq =>
          match (get_pi_estimate b nq).1 with
          | none => none
          | some e => some (acc.1 ++ [e], acc.2 ++ [(nq, e)]))
        acc l = none := by
  intro l
  induction l with
  | nil =>
      intro acc h
      simp at h
  | cons a t ih =>
      intro acc h
      rw [List.foldlM_cons]
      cases hx : (get_pi_estimate b a).1 with
      | none => simp
      | some e =>
          simp only
          rcases h with ⟨y, hy, hnone⟩
          rcases List.mem_cons.mp hy with rfl | hmem
          · rw [hx] at hnone
            cases hnone
          · simpa using ih _ ⟨y, hmem, hnone⟩

/-- C5: if the most frequent outcome decodes to integer 0, the
computation `1/(2*theta)` in `get_pi_estimate` is an unhandled
division by zero: the fault propagates out of `get_pi_estimate`
(result `none`) and, when that qubit count is part of the sweep,
aborts the whole sweep (result `none`). -/
theorem get_pi_estimate_div_zero (b : Backend) (n : Nat) (s : String)
    (hs : max_by_count
      (run_job (get_pi_estimate_circ n) b (some 10000) (some 0)) = some s)
    (hk : binToNat s = 0) :
    (get_pi_estimate b n).1 = none ∧ (n ∈ nqs → sweep b = none) := by
  have hfault : (get_pi_estimate b n).1 = none := by
    simp only [get_pi_estimate]
    rw [hs]
    simp only [if_pos hk]
  refine ⟨hfault, ?_⟩
  intro hmem
  exact sweep_fold_none b nqs ([], []) ⟨n, hmem, hfault⟩

/-- Witness for C5: with a backend whose only outcome is `"0"`, the
estimate at `n = 2` faults and the full sweep aborts. -/
theorem get_pi_estimate_div_zero_witness :
    (get_pi_estimate demoZeroBackend 2).1 = none
    ∧ sweep demoZeroBackend = none := by
  have h := get_pi_estimate_div_zero demoZeroBackend 2 "0" (by decide) (by decide)
  exact ⟨h.1, h.2 (by decide)⟩

/-- C7 (amended): the shot-count parameter of `run_job` defaults to 1000
(not 10000) and its optimization-level parameter defaults to 0 when
the caller does not supply them; supplied values are passed through. -/
theorem run_job_defaults (circ_ : QuantumCircuit) (backend_ : Backend) :
    run_job circ_ backend_ none none = backend_ circ_ 1000 0
    ∧ (∀ s o : Nat, run_job circ_ backend_ (some s) (some o) = backend_ circ_ s o) :=
  ⟨rfl, fun _ _ => rfl⟩

/-- Counterexample for C7 as stated: with a backend that echoes the
shot count it received, calling `run_job` without a shot count yields
the 1000-shot result, which differs from the 10000-shot result — so
the shot-count default is 1000, not 10000. -/
theorem run_job_default_shots_counterexample :
    run_job ⟨1, 0, []⟩ shotsEcho none none = [("shots", 1000)]
    ∧ run_job ⟨1, 0, []⟩ shotsEcho none none ≠ shotsEcho ⟨1, 0, []⟩ 10000 0 :=
  ⟨rfl, by decide⟩

lemma sweep_fold_some (b : Backend) :
    ∀ (l : List Nat) (acc : List ℚ × List (Nat × ℚ)),
      (∀ x ∈ l, ((get_pi_estimate b x).1).isSome) →
      List.foldlM
        (fun acc nq =>
          match (get_pi_estimate b nq).1 with
          | none => none
          | some e => some (acc.1 ++ [e], acc.2 ++ [(nq, e)]))
        acc l
      = some
          (acc.1 ++ l.map (fun nq => ((get_pi_estimate b nq).1).getD 0),
           acc.2 ++ l.map (fun nq => (nq, ((get_pi_estimate b nq).1).getD 0))) := by
  intro l
  induction l with
  | nil =>
      intro acc _
      simp
  | cons a t ih =>
      intro acc h
      rw [List.foldlM_cons]
      obtain ⟨e, he⟩ := Option.isSome_iff_exists.mp (h a (List.mem_cons_self a t))
      rw [he]
      simp only
      have ht := ih (acc.1 ++ [e], acc.2 ++ [(a, e)])
        (fun x hx => h x (List.mem_cons_of_mem a hx))
      simpa [he] using ht

/-- C8: the sweep driver iterates qubit counts 2 through 12 inclusive
in increasing order (11 of them), calls the estimation driver once for
each, collects the results into an ordered sequence in that order, and
prints each estimate with its qubit count (assuming no iteration
faults). -/
theorem sweep_spec (b : Backend)
    (h : ∀ nq ∈ nqs, ((get_pi_estimate b nq).1).isSome) :
    nqs = [2, 3, 4, 5, 6, 7, 8, 9, 10, 11, 12]
    ∧ nqs.length = 11
    ∧ sweep b
      = some
          (nqs.map (fun nq => ((get_pi_estimate b nq).1).getD 0),
           nqs.map (fun nq => (nq, ((get_pi_estimate b nq).1).getD 0))) := by
  refine ⟨by decide, by decide, ?_⟩
  have hfold := sweep_fold_some b nqs ([], []) h
  simpa [sweep] using hfold

/-- Witness for C8 with a concrete backend whose mode outcome is
`"1"` for every qubit count, so no iteration faults. -/
theorem sweep_spec_witness :
    sweep demoBackend
      = some
          (nqs.map (fun nq => ((get_pi_estimate demoBackend nq).1).getD 0),
           nqs.map (fun nq => (nq, ((get_pi_estimate demoBackend nq).1).getD 0))) :=
  (sweep_spec demoBackend (by decide)).2.2

/-- C9: `get_pi_estimate` writes a circuit-diagram image file named by
the qubit count if and only if `n < 10`; for `n ≥ 10` it writes no
file, and in either case no other file is written. -/
theorem get_pi_estimate_files (b : Backend) (n : Nat) :
    ((get_pi_estimate b n).2 = [toString n ++ "_qubit_circuit.png"] ↔ n < 10)
    ∧ ((get_pi_estimate b n).2 = [] ↔ ¬ n < 10) := by
  by_cases hn : n < 10 <;> simp [get_pi_estimate, hn]
